import Mathlib

/-!
Verification development for `mexhat.cpp`, a spinning "Mexican hat" surface
renderer (SDL2 + OpenGL ES 2.0).

The mesh builder `makeSombrero` and the column-major 4x4 matrix helpers
(`Mat4`, `perspective`, `rotateY`, `rotateX`, `translate`) are embedded
shallowly.  Float arithmetic is modelled by exact rationals (`ℚ`), and the
transcendental float routines `sqrtf`, `sinf`, `cosf`, `tanf` are passed in
as function parameters, so every theorem quantifies over them (for the
matrix theorems they are instantiated with `Real.cos`, `Real.sin`,
`Real.tan`).  The 16-bit `GLushort` conversion of the C++ index arithmetic
is modelled by an explicit `% 65536`.
-/

/-! ## Column-major 4x4 matrices (mexhat.cpp lines 70-102) -/

/-- A 4x4 matrix stored column-major in 16 cells, as `struct Mat4 { float m[16]; }`. -/
def Mat4 (α : Type) : Type := Fin 16 → α

/-- `Mat4::identity()`: cell `i` holds `1` iff `i % 5 == 0` (mexhat.cpp line 74). -/
def Mat4.identity {α : Type} [Field α] : Mat4 α :=
  fun k => if (k : ℕ) % 5 = 0 then 1 else 0

/-- `mul(A,B)` (mexhat.cpp lines 77-84): `R.m[c*4+r] = Σ_t A.m[t*4+r] * B.m[c*4+t]`.
For a cell `k`, the row is `k % 4` and the column is `k / 4`. -/
def Mat4.mul {α : Type} [Field α] (A B : Mat4 α) : Mat4 α := fun k =>
  have hk : (k : ℕ) < 16 := k.isLt
  A ⟨0 * 4 + (k : ℕ) % 4, by omega⟩ * B ⟨(k : ℕ) / 4 * 4 + 0, by omega⟩ +
  A ⟨1 * 4 + (k : ℕ) % 4, by omega⟩ * B ⟨(k : ℕ) / 4 * 4 + 1, by omega⟩ +
  A ⟨2 * 4 + (k : ℕ) % 4, by omega⟩ * B ⟨(k : ℕ) / 4 * 4 + 2, by omega⟩ +
  A ⟨3 * 4 + (k : ℕ) % 4, by omega⟩ * B ⟨(k : ℕ) / 4 * 4 + 3, by omega⟩

/-- `perspective(fovy, aspect, znear, zfar)` (mexhat.cpp lines 85-91):
`f = 1/tanf(fovy*0.5)`; nonzero cells are `m[0]=f/aspect`, `m[5]=f`,
`m[10]=(zfar+znear)/(znear-zfar)`, `m[11]=-1`, `m[14]=(2*zfar*znear)/(znear-zfar)`.
The float `tanf` is passed in as `tanf`. -/
def perspective {α : Type} [Field α] (tanf : α → α) (fovy aspect znear zfar : α) :
    Mat4 α :=
  let f : α := 1 / tanf (fovy * (1 / 2))
  fun k =>
    if (k : ℕ) = 0 then f / aspect
    else if (k : ℕ) = 5 then f
    else if (k : ℕ) = 10 then (zfar + znear) / (znear - zfar)
    else if (k : ℕ) = 11 then -1
    else if (k : ℕ) = 14 then (2 * zfar * znear) / (znear - zfar)
    else 0

/-- `rotateY(a)` (mexhat.cpp lines 92-95): starts from the identity and sets
`m[0]=c, m[2]=s, m[8]=-s, m[10]=c` with `c = cosf a`, `s = sinf a`. -/
def rotateY {α : Type} [Field α] (cosf sinf : α → α) (a : α) : Mat4 α :=
  let c := cosf a
  let s := sinf a
  fun k =>
    if (k : ℕ) = 0 then c
    else if (k : ℕ) = 2 then s
    else if (k : ℕ) = 8 then -s
    else if (k : ℕ) = 10 then c
    else Mat4.identity k

/-- `rotateX(a)` (mexhat.cpp lines 96-99): starts from the identity and sets
`m[5]=c, m[6]=s, m[9]=-s, m[10]=c` with `c = cosf a`, `s = sinf a`. -/
def rotateX {α : Type} [Field α] (cosf sinf : α → α) (a : α) : Mat4 α :=
  let c := cosf a
  let s := sinf a
  fun k =>
    if (k : ℕ) = 5 then c
    else if (k : ℕ) = 6 then s
    else if (k : ℕ) = 9 then -s
    else if (k : ℕ) = 10 then c
    else Mat4.identity k

/-- `translate(x,y,z)` (mexhat.cpp lines 100-102): identity with
`m[12]=x, m[13]=y, m[14]=z`. -/
def Mat4.translate {α : Type} [Field α] (x y z : α) : Mat4 α :=
  fun k =>
    if (k : ℕ) = 12 then x
    else if (k : ℕ) = 13 then y
    else if (k : ℕ) = 14 then z
    else Mat4.identity k

/-! ## The mesh builder `makeSombrero` (mexhat.cpp lines 104-169)

The float grid/sample/color computations are carried out in `ℚ`; `sqrtf`
and `sinf` are abstract parameters `sqrtq`, `sinq`.  The C++ resolution
parameter is an `int`, modelled by `ℤ` and clamped exactly as on line 109.
-/

/-- The grid x coordinate of column `i` (mexhat.cpp lines 122-123):
`tx = i/(N-1); x = xmin + tx*(xmax-xmin)` with `xmin = -radius`, `xmax = radius`. -/
def xAt (n : ℕ) (radius : ℚ) (i : ℕ) : ℚ :=
  let xmin := -radius
  let xmax := radius
  xmin + ((i : ℚ) / ((n : ℚ) - 1)) * (xmax - xmin)

/-- The grid y coordinate of row `j` (mexhat.cpp lines 119-120):
`ty = j/(N-1); y = ymin + ty*(ymax-ymin)` with `ymin = -radius`, `ymax = radius`. -/
def yAt (n : ℕ) (radius : ℚ) (j : ℕ) : ℚ :=
  let ymin := -radius
  let ymax := radius
  ymin + ((j : ℚ) / ((n : ℚ) - 1)) * (ymax - ymin)

/-- The row-major grid of sample points: outer loop `j` (rows), inner loop `i`
(columns), mexhat.cpp lines 118-121. -/
def gridPoints (n : ℕ) (radius : ℚ) : List (ℚ × ℚ) :=
  (List.range n).flatMap fun j =>
    (List.range n).map fun i => (xAt n radius i, yAt n radius j)

/-- The guarded radius of a sample (mexhat.cpp lines 124-125):
`r = sqrtf(x*x + y*y); if (r < 1e-4f) r = 1e-4f;`. -/
def sampleR (sqrtq : ℚ → ℚ) (x y : ℚ) : ℚ :=
  let r := sqrtq (x * x + y * y)
  if r < 1 / 10000 then 1 / 10000 else r

/-- The sampled height (mexhat.cpp line 126): `z = zscale * (sinf(freq*r)/r)`
with `r` the guarded radius. -/
def sample (sqrtq sinq : ℚ → ℚ) (zscale freq x y : ℚ) : ℚ :=
  zscale * (sinq (freq * sampleR sqrtq x y) / sampleR sqrtq x y)

/-- All sampled heights in row-major grid order (`zs` in mexhat.cpp line 130). -/
def zsOf (sqrtq sinq : ℚ → ℚ) (n : ℕ) (radius zscale freq : ℚ) : List ℚ :=
  (gridPoints n radius).map fun p => sample sqrtq sinq zscale freq p.1 p.2

/-- The running minimum of the sampled heights, seeded with `1e9f`
(mexhat.cpp lines 117 and 131: `if (z<zmin) zmin=z;`). -/
def zminOf (zs : List ℚ) : ℚ :=
  zs.foldl (fun m z => if z < m then z else m) (10 ^ 9)

/-- The running maximum of the sampled heights, seeded with `-1e9f`
(mexhat.cpp lines 117 and 131: `if (z>zmax) zmax=z;`). -/
def zmaxOf (zs : List ℚ) : ℚ :=
  zs.foldl (fun m z => if m < z then z else m) (-(10 ^ 9))

/-- The normalisation range (mexhat.cpp line 134):
`range = zmax - zmin; if (range < 1e-6f) range = 1.0f;`. -/
def rangeOf (zs : List ℚ) : ℚ :=
  let r := zmaxOf zs - zminOf zs
  if r < 1 / 1000000 then 1 else r

/-- The 4-segment piecewise-linear colour ramp (mexhat.cpp lines 139-143),
mapping a normalised height `t` to `(r,g,b)`. -/
def colorOf (t : ℚ) : ℚ × ℚ × ℚ :=
  if t < 1 / 4 then (0, t / (1 / 4), 1)
  else if t < 1 / 2 then (0, 1, 1 - (t - 1 / 4) / (1 / 4))
  else if t < 3 / 4 then ((t - 1 / 2) / (1 / 4), 1, 0)
  else (1, 1 - (t - 3 / 4) / (1 / 4), 0)

/-- The per-vertex colours (mexhat.cpp lines 137-145): for each stored height
`z`, the colour of `t = (z - zmin)/range`. -/
def colorsOf (zs : List ℚ) : List (ℚ × ℚ × ℚ) :=
  zs.map fun z => colorOf ((z - zminOf zs) / rangeOf zs)

/-- The per-vertex positions (mexhat.cpp lines 127-129): each grid point is
rescaled into the fixed display radius `1.5` and paired with its raw height:
`((x/radius)*1.5, (y/radius)*1.5, z)`. -/
def posOf (sqrtq sinq : ℚ → ℚ) (n : ℕ) (radius zscale freq : ℚ) :
    List (ℚ × ℚ × ℚ) :=
  (gridPoints n radius).map fun p =>
    ((p.1 / radius) * (3 / 2), (p.2 / radius) * (3 / 2),
      sample sqrtq sinq zscale freq p.1 p.2)

/-- The six `GLushort` indices emitted for grid cell `(i,j)` (mexhat.cpp lines
151-156), in push order `a, c, b, b, c, d`.  The `int → GLushort` conversion
is the reduction modulo `2^16 = 65536`. -/
def cellIndices (n j i : ℕ) : List ℕ :=
  let a := (j * n + i) % 65536
  let b := (j * n + (i + 1)) % 65536
  let c := ((j + 1) * n + i) % 65536
  let d := ((j + 1) * n + (i + 1)) % 65536
  [a, c, b, b, c, d]

/-- The full index list (mexhat.cpp lines 148-158): two triangles per cell,
outer loop `j`, inner loop `i`, both over `0 .. N-2`. -/
def indicesOf (n : ℕ) : List ℕ :=
  (List.range (n - 1)).flatMap fun j =>
    (List.range (n - 1)).flatMap fun i => cellIndices n j i

/-- The CPU-side mesh data handed to the GPU buffers (mexhat.cpp lines
160-167): the `pos`, `col` and `idx` vectors. -/
structure Mesh where
  pos : List (ℚ × ℚ × ℚ)
  col : List (ℚ × ℚ × ℚ)
  idx : List ℕ

/-- `makeSombrero(N, radius, zscale, freq)` (mexhat.cpp lines 108-169).
The resolution is clamped by `if (N<3) N=3;` (line 109); positions, colours
and indices are produced as in the source (positions and heights in one
pass, colours in a second pass over the stored heights). -/
def makeSombrero (sqrtq sinq : ℚ → ℚ) (N : ℤ) (radius zscale freq : ℚ) : Mesh :=
  let n : ℕ := if N < 3 then 3 else N.toNat
  { pos := posOf sqrtq sinq n radius zscale freq
    col := colorsOf (zsOf sqrtq sinq n radius zscale freq)
    idx := indicesOf n }

/-! ## Shared helper lemmas -/

section Helpers

/-- The length of a `flatMap` over `List.range` with constant row length. -/
lemma length_flatMap_range {α : Type} (f : ℕ → List α) (m n : ℕ)
    (h : ∀ j, (f j).length = n) :
    ((List.range m).flatMap f).length = m * n := by
  induction m with
  | zero => simp
  | succ m ih =>
    rw [List.range_succ, List.flatMap_append, List.length_append, ih]
    simp [h, Nat.succ_mul]

/-- Indexing into a `flatMap` over `List.range` with constant row length:
the element at flat position `j * n + i` is element `i` of row `j`. -/
lemma getD_flatMap_range {α : Type} (f : ℕ → List α) (n : ℕ)
    (h : ∀ j, (f j).length = n) :
    ∀ (m j i : ℕ) (d : α), j < m → i < n →
      ((List.range m).flatMap f).getD (j * n + i) d = (f j).getD i d := by
  intro m
  induction m with
  | zero => intro j i d hj _; exact absurd hj (Nat.not_lt_zero j)
  | succ m ih =>
    intro j i d hj hi
    have hlen : ((List.range m).flatMap f).length = m * n :=
      length_flatMap_range f m n h
    rw [List.range_succ, List.flatMap_append]
    rcases Nat.lt_or_ge j m with hjm | hjm
    · have hidx : j * n + i < m * n := by
        calc j * n + i < j * n + n := by omega
          _ = (j + 1) * n := by ring
          _ ≤ m * n := Nat.mul_le_mul_right n hjm
      rw [List.getD_append _ _ d _ (by rw [hlen]; exact hidx)]
      exact ih j i d hjm hi
    · have hj' : j = m := by omega
      subst hj'
      rw [List.getD_append_right _ _ d _ (by rw [hlen]; omega)]
      rw [hlen]
      have hsub : j * n + i - j * n = i := by omega
      rw [hsub]
      simp

/-- The running-minimum fold never exceeds its seed. -/
lemma foldlMin_le_init (zs : List ℚ) (a : ℚ) :
    zs.foldl (fun m z => if z < m then z else m) a ≤ a := by
  induction zs generalizing a with
  | nil => simp
  | cons z zs ih =>
    simp only [List.foldl_cons]
    refine le_trans (ih _) ?_
    by_cases hza : z < a
    · rw [if_pos hza]; exact le_of_lt hza
    · rw [if_neg hza]

/-- The running-minimum fold is a lower bound for every list element. -/
lemma foldlMin_le_mem (zs : List ℚ) (a z : ℚ) (hz : z ∈ zs) :
    zs.foldl (fun m z => if z < m then z else m) a ≤ z := by
  induction zs generalizing a with
  | nil => cases hz
  | cons w zs ih =>
    simp only [List.foldl_cons]
    rcases List.mem_cons.1 hz with hzw | hzs
    · subst hzw
      refine le_trans (foldlMin_le_init _ _) ?_
      by_cases hza : z < a
      · rw [if_pos hza]
      · rw [if_neg hza]; exact le_of_not_lt hza
    · exact ih _ hzs

/-- The running-minimum fold returns either its seed or a list element. -/
lemma foldlMin_init_or_mem (zs : List ℚ) (a : ℚ) :
    zs.foldl (fun m z => if z < m then z else m) a = a ∨
      zs.foldl (fun m z => if z < m then z else m) a ∈ zs := by
  induction zs generalizing a with
  | nil => left; rfl
  | cons z zs ih =>
    simp only [List.foldl_cons]
    rcases ih (if z < a then z else a) with hcase | hcase
    · rw [hcase]
      by_cases hza : z < a
      · right; rw [if_pos hza]; exact List.mem_cons_self z zs
      · left; rw [if_neg hza]
    · right; exact List.mem_cons_of_mem _ hcase

/-- The running-maximum fold is at least its seed. -/
lemma foldlMax_ge_init (zs : List ℚ) (a : ℚ) :
    a ≤ zs.foldl (fun m z => if m < z then z else m) a := by
  induction zs generalizing a with
  | nil => simp
  | cons z zs ih =>
    simp only [List.foldl_cons]
    refine le_trans ?_ (ih _)
    by_cases haz : a < z
    · rw [if_pos haz]; exact le_of_lt haz
    · rw [if_neg haz]

/-- The running-maximum fold is an upper bound for every list element. -/
lemma foldlMax_ge_mem (zs : List ℚ) (a z : ℚ) (hz : z ∈ zs) :
    z ≤ zs.foldl (fun m z => if m < z then z else m) a := by
  induction zs generalizing a with
  | nil => cases hz
  | cons w zs ih =>
    simp only [List.foldl_cons]
    rcases List.mem_cons.1 hz with hzw | hzs
    · subst hzw
      refine le_trans ?_ (foldlMax_ge_init _ _)
      by_cases haz : a < z
      · rw [if_pos haz]
      · rw [if_neg haz]; exact le_of_not_lt haz
    · exact ih _ hzs

/-- The running-maximum fold returns either its seed or a list element. -/
lemma foldlMax_init_or_mem (zs : List ℚ) (a : ℚ) :
    zs.foldl (fun m z => if m < z then z else m) a = a ∨
      zs.foldl (fun m z => if m < z then z else m) a ∈ zs := by
  induction zs generalizing a with
  | nil => left; rfl
  | cons z zs ih =>
    simp only [List.foldl_cons]
    rcases ih (if a < z then z else a) with hcase | hcase
    · rw [hcase]
      by_cases haz : a < z
      · right; rw [if_pos haz]; exact List.mem_cons_self z zs
      · left; rw [if_neg haz]
    · right; exact List.mem_cons_of_mem _ hcase

/-- `zmin` is a lower bound for every sampled height. -/
lemma zminOf_le_mem (zs : List ℚ) (z : ℚ) (hz : z ∈ zs) : zminOf zs ≤ z :=
  foldlMin_le_mem zs _ z hz

/-- `zmax` is an upper bound for every sampled height. -/
lemma mem_le_zmaxOf (zs : List ℚ) (z : ℚ) (hz : z ∈ zs) : z ≤ zmaxOf zs :=
  foldlMax_ge_mem zs _ z hz

/-- If `zv` is a list element that is a lower bound of the list and does not
exceed the `1e9` seed, then the computed `zmin` is exactly `zv`. -/
lemma zminOf_eq_of_attained (zs : List ℚ) (zv : ℚ) (hm : zv ∈ zs)
    (hall : ∀ z ∈ zs, zv ≤ z) (hb : zv ≤ 10 ^ 9) : zminOf zs = zv := by
  refine le_antisymm (zminOf_le_mem zs zv hm) ?_
  rcases foldlMin_init_or_mem zs (10 ^ 9) with hcase | hcase
  · unfold zminOf; rw [hcase]; exact hb
  · exact hall _ hcase

/-- If `zv` is a list element that is an upper bound of the list and is at
least the `-1e9` seed, then the computed `zmax` is exactly `zv`. -/
lemma zmaxOf_eq_of_attained (zs : List ℚ) (zv : ℚ) (hm : zv ∈ zs)
    (hall : ∀ z ∈ zs, z ≤ zv) (hb : -(10 ^ 9) ≤ zv) : zmaxOf zs = zv := by
  refine le_antisymm ?_ (mem_le_zmaxOf zs zv hm)
  rcases foldlMax_init_or_mem zs (-(10 ^ 9)) with hcase | hcase
  · unfold zmaxOf; rw [hcase]; exact hb
  · exact hall _ hcase

end Helpers

section MoreHelpers

/-- The clamped resolution used inside `makeSombrero` is always at least 3. -/
lemma clampN_ge (N : ℤ) : 3 ≤ (if N < 3 then (3 : ℕ) else N.toNat) := by
  split
  · exact le_refl 3
  · omega

/-- For `N ≥ 3` the clamp `if (N<3) N=3;` is the identity. -/
lemma clampN_eq (N : ℤ) (h : 3 ≤ N) :
    (if N < 3 then (3 : ℕ) else N.toNat) = N.toNat :=
  if_neg (not_lt.2 h)

/-- The grid has `n * n` sample points. -/
lemma gridPoints_length (n : ℕ) (radius : ℚ) :
    (gridPoints n radius).length = n * n := by
  unfold gridPoints
  exact length_flatMap_range _ n n fun j => by simp

/-- There are `n * n` vertex positions. -/
lemma posOf_length (sqrtq sinq : ℚ → ℚ) (n : ℕ) (radius zscale freq : ℚ) :
    (posOf sqrtq sinq n radius zscale freq).length = n * n := by
  unfold posOf
  rw [List.length_map, gridPoints_length]

/-- There are `n * n` sampled heights. -/
lemma zsOf_length (sqrtq sinq : ℚ → ℚ) (n : ℕ) (radius zscale freq : ℚ) :
    (zsOf sqrtq sinq n radius zscale freq).length = n * n := by
  unfold zsOf
  rw [List.length_map, gridPoints_length]

/-- One colour is produced per stored height. -/
lemma colorsOf_length (zs : List ℚ) : (colorsOf zs).length = zs.length := by
  unfold colorsOf
  rw [List.length_map]

/-- The index list has `(n-1) * ((n-1) * 6)` entries. -/
lemma indicesOf_length (n : ℕ) :
    (indicesOf n).length = (n - 1) * ((n - 1) * 6) := by
  unfold indicesOf
  refine length_flatMap_range _ (n - 1) ((n - 1) * 6) fun j => ?_
  exact length_flatMap_range _ (n - 1) 6 fun i => by simp [cellIndices]

/-- Membership in the grid: exactly the points `(xAt i, yAt j)` with `i, j < n`. -/
lemma mem_gridPoints (n : ℕ) (radius : ℚ) (p : ℚ × ℚ) :
    p ∈ gridPoints n radius ↔
      ∃ j < n, ∃ i < n, p = (xAt n radius i, yAt n radius j) := by
  unfold gridPoints
  simp only [List.mem_flatMap, List.mem_map, List.mem_range]
  constructor
  · rintro ⟨j, hj, i, hi, rfl⟩
    exact ⟨j, hj, i, hi, rfl⟩
  · rintro ⟨j, hj, i, hi, rfl⟩
    exact ⟨j, hj, i, hi, rfl⟩

/-- The colour ramp sends `t = 0` to pure blue. -/
lemma colorOf_zero : colorOf 0 = (0, 0, 1) := by
  norm_num [colorOf]

/-- The colour ramp sends `t = 1/4` to cyan. -/
lemma colorOf_quarter : colorOf (1 / 4) = (0, 1, 1) := by
  norm_num [colorOf]

/-- The colour ramp sends `t = 1/2` to green. -/
lemma colorOf_half : colorOf (1 / 2) = (0, 1, 0) := by
  norm_num [colorOf]

/-- The colour ramp sends `t = 3/4` to yellow. -/
lemma colorOf_threeQuarters : colorOf (3 / 4) = (1, 1, 0) := by
  norm_num [colorOf]

/-- The colour ramp sends `t = 1` to pure red. -/
lemma colorOf_one : colorOf 1 = (1, 0, 0) := by
  norm_num [colorOf]

/-- For `t ∈ [0,1]` every component of the ramp colour lies in `[0,1]`. -/
lemma colorOf_unit (t : ℚ) (h0 : 0 ≤ t) (h1 : t ≤ 1) :
    0 ≤ (colorOf t).1 ∧ (colorOf t).1 ≤ 1 ∧
      0 ≤ (colorOf t).2.1 ∧ (colorOf t).2.1 ≤ 1 ∧
      0 ≤ (colorOf t).2.2 ∧ (colorOf t).2.2 ≤ 1 := by
  unfold colorOf
  split_ifs with ha hb hc <;>
    refine ⟨?_, ?_, ?_, ?_, ?_, ?_⟩ <;> simp <;> linarith

end MoreHelpers

section IndexHelpers

/-- Every index emitted for the `n`-resolution grid is below `n * n`. -/
lemma mem_indicesOf_lt (n : ℕ) (hn : 1 ≤ n) (k : ℕ) (hk : k ∈ indicesOf n) :
    k < n * n := by
  unfold indicesOf at hk
  rw [List.mem_flatMap] at hk
  obtain ⟨j, hj, hk⟩ := hk
  rw [List.mem_flatMap] at hk
  obtain ⟨i, hi, hk⟩ := hk
  rw [List.mem_range] at hj hi
  unfold cellIndices at hk
  simp only [List.mem_cons, List.not_mem_nil, or_false] at hk
  have hjn : (j + 1) * n ≤ (n - 1) * n := Nat.mul_le_mul_right n (by omega)
  have hj0 : j * n ≤ (j + 1) * n := Nat.mul_le_mul_right n (by omega)
  have htop : (n - 1) * n + (n - 1) < n * n := by
    obtain ⟨m, rfl⟩ : ∃ m, n = m + 1 := ⟨n - 1, by omega⟩
    simp only [Nat.add_sub_cancel]
    nlinarith
  have hbound : ∀ x, x ≤ (j + 1) * n + (i + 1) → x % 65536 < n * n := by
    intro x hx
    exact lt_of_le_of_lt (le_trans (Nat.mod_le x 65536) (by omega)) htop
  rcases hk with rfl | rfl | rfl | rfl | rfl | rfl
  · exact hbound _ (by omega)
  · exact hbound _ (by omega)
  · exact hbound _ (by omega)
  · exact hbound _ (by omega)
  · exact hbound _ (by omega)
  · exact hbound _ (by omega)

/-- The six entries of cell `(i,j)` occupy positions
`(j*(n-1)+i)*6 .. (j*(n-1)+i)*6+5` of the index list. -/
lemma indicesOf_getD (n j i k : ℕ) (hj : j < n - 1) (hi : i < n - 1)
    (hk : k < 6) (d : ℕ) :
    (indicesOf n).getD ((j * (n - 1) + i) * 6 + k) d =
      (cellIndices n j i).getD k d := by
  unfold indicesOf
  have hidx : (j * (n - 1) + i) * 6 + k = j * ((n - 1) * 6) + (i * 6 + k) := by
    ring
  rw [hidx]
  have hinner : i * 6 + k < (n - 1) * 6 := by
    have : (i + 1) * 6 ≤ (n - 1) * 6 := Nat.mul_le_mul_right 6 (by omega)
    omega
  rw [getD_flatMap_range _ ((n - 1) * 6)
    (fun jj => length_flatMap_range _ _ _ fun ii => by simp [cellIndices])
    (n - 1) j (i * 6 + k) d hj hinner]
  exact getD_flatMap_range _ 6 (fun ii => by simp [cellIndices])
    (n - 1) i k d hi hk

end IndexHelpers

/-! ## Claims -/

/-- C2 (counterexample): at resolution `N = 257` the claim fails.  The cell
`(i,j) = (255,255)` should emit corner `a = j*N+i = 255*257+255 = 65790`,
but the `GLushort` store reduces it modulo `2^16`, so position
`(255*(257-1)+255)*6 = 393210` of the index list holds `254`, not `65790`. -/
theorem c2_counterexample :
    (indicesOf 257).getD 393210 0 = 254 ∧
      255 * 257 + 255 = 65790 ∧ (254 : ℕ) ≠ 65790 := by
  have h := indicesOf_getD 257 255 255 0 (by decide) (by decide) (by decide) 0
  have hidx : (255 * (257 - 1) + 255) * 6 + 0 = 393210 := by decide
  rw [hidx] at h
  rw [h]
  refine ⟨by decide, by decide, by decide⟩

/-- C2 (amended): for `3 ≤ N ≤ 256` (so that `N² ≤ 65536` fits the 16-bit
index type), every emitted index value equals the intended grid-corner
position of its cell exactly: the six entries for cell `(i,j)` are
`a, c, b, b, c, d` with `a = j*N+i`, `b = j*N+(i+1)`, `c = (j+1)*N+i`,
`d = (j+1)*N+(i+1)` as exact natural numbers, and they sit at positions
`(j*(N-1)+i)*6 .. +5` of the emitted index list. -/
theorem c2_exact_indices_up_to_256 (n j i : ℕ) (h3 : 3 ≤ n) (h256 : n ≤ 256)
    (hj : j < n - 1) (hi : i < n - 1) :
    cellIndices n j i =
      [j * n + i, (j + 1) * n + i, j * n + (i + 1),
        j * n + (i + 1), (j + 1) * n + i, (j + 1) * n + (i + 1)] ∧
    ∀ k < 6, (indicesOf n).getD ((j * (n - 1) + i) * 6 + k) 0 =
      (cellIndices n j i).getD k 0 := by
  constructor
  · unfold cellIndices
    have hnn : n * n ≤ 65536 := le_trans (Nat.mul_le_mul h256 h256) (by norm_num)
    have hjn : (j + 1) * n ≤ (n - 1) * n := Nat.mul_le_mul_right n (by omega)
    have hj0 : j * n ≤ (j + 1) * n := Nat.mul_le_mul_right n (by omega)
    have htop : (n - 1) * n + (n - 1) < n * n := by
      obtain ⟨m, rfl⟩ : ∃ m, n = m + 1 := ⟨n - 1, by omega⟩
      simp only [Nat.add_sub_cancel]
      nlinarith
    rw [Nat.mod_eq_of_lt (by omega), Nat.mod_eq_of_lt (by omega),
      Nat.mod_eq_of_lt (by omega), Nat.mod_eq_of_lt (by omega)]
  · intro k hk
    exact indicesOf_getD n j i k hj hi hk 0

/-- Witness for C2 (amended), at `N = 3`, cell `(0,0)`. -/
theorem c2_exact_indices_witness :
    cellIndices 3 0 0 =
      [0 * 3 + 0, (0 + 1) * 3 + 0, 0 * 3 + (0 + 1),
        0 * 3 + (0 + 1), (0 + 1) * 3 + 0, (0 + 1) * 3 + (0 + 1)] :=
  (c2_exact_indices_up_to_256 3 0 0 (by decide) (by decide) (by decide)
    (by decide)).1

/-- C3: for every `N ≥ 3` (and any trig/sqrt routines and parameters) the
builder produces exactly `N²` vertex positions, `N²` vertex colours and
`6·(N-1)²` triangle-list indices. -/
theorem c3_mesh_sizes (sqrtq sinq : ℚ → ℚ) (N : ℤ) (hN : 3 ≤ N)
    (radius zscale freq : ℚ) :
    (makeSombrero sqrtq sinq N radius zscale freq).pos.length =
        N.toNat * N.toNat ∧
      (makeSombrero sqrtq sinq N radius zscale freq).col.length =
        N.toNat * N.toNat ∧
      (makeSombrero sqrtq sinq N radius zscale freq).idx.length =
        6 * ((N.toNat - 1) * (N.toNat - 1)) := by
  simp only [makeSombrero, clampN_eq N hN]
  refine ⟨posOf_length _ _ _ _ _ _, ?_, ?_⟩
  · rw [colorsOf_length, zsOf_length]
  · rw [indicesOf_length]; ring

/-- Witness for C3: `build(3,...)` gives 9 vertices and 24 indices;
`build(128,...)` gives 16384 vertices and 96774 indices. -/
theorem c3_mesh_sizes_witness :
    (makeSombrero id id 3 1 1 1).pos.length = 9 ∧
      (makeSombrero id id 3 1 1 1).col.length = 9 ∧
      (makeSombrero id id 3 1 1 1).idx.length = 24 ∧
      (makeSombrero id id 128 6 1 1).pos.length = 16384 ∧
      (makeSombrero id id 128 6 1 1).idx.length = 96774 := by
  obtain ⟨h1, h2, h3⟩ := c3_mesh_sizes id id 3 (by norm_num) 1 1 1
  obtain ⟨h4, _, h6⟩ := c3_mesh_sizes id id 128 (by norm_num) 6 1 1
  rw [h1, h2, h3, h4, h6]
  refine ⟨by decide, by decide, by decide, by decide, by decide⟩

/-- C4: every index value in the output of `makeSombrero` is strictly below
the vertex count, for all resolutions (clamped or not) and all parameters. -/
theorem c4_indices_below_vertex_count (sqrtq sinq : ℚ → ℚ) (N : ℤ)
    (radius zscale freq : ℚ) (k : ℕ)
    (hk : k ∈ (makeSombrero sqrtq sinq N radius zscale freq).idx) :
    k < (makeSombrero sqrtq sinq N radius zscale freq).pos.length := by
  simp only [makeSombrero] at hk ⊢
  rw [posOf_length]
  exact mem_indicesOf_lt _ (le_trans (by norm_num) (clampN_ge N)) k hk

/-- Witness for C4: at `N = 3`, the index value `4` occurs in the output and
is below the vertex count. -/
theorem c4_indices_below_vertex_count_witness :
    4 < (makeSombrero id id 3 1 1 1).pos.length := by
  refine c4_indices_below_vertex_count id id 3 1 1 1 4 ?_
  show (4 : ℕ) ∈ indicesOf 3
  decide

/-- C5: the divisor used for every sampled height is the guarded radius,
which is always at least `ε = 1e-4` (in particular at the origin), hence
never zero: the division `sin(freq*r)/r` is well defined for every sample. -/
theorem c5_radius_guard (sqrtq sinq : ℚ → ℚ) (zscale freq x y : ℚ) :
    1 / 10000 ≤ sampleR sqrtq x y ∧ sampleR sqrtq x y ≠ 0 ∧
      sample sqrtq sinq zscale freq x y =
        zscale * (sinq (freq * sampleR sqrtq x y) / sampleR sqrtq x y) := by
  have h1 : 1 / 10000 ≤ sampleR sqrtq x y := by
    simp only [sampleR]
    split
    · exact le_refl _
    · exact le_of_not_lt (by assumption)
  refine ⟨h1, fun h0 => ?_, rfl⟩
  rw [h0] at h1
  norm_num at h1

/-- C6: if the tracked height range degenerates (`zmax - zmin = 0`), the
normalisation range is substituted by `1`, every normalised height is `0`,
and every vertex colour is `(0,0,1)`. -/
theorem c6_degenerate_range (zs : List ℚ) (h : zmaxOf zs - zminOf zs = 0) :
    rangeOf zs = 1 ∧ (∀ z ∈ zs, (z - zminOf zs) / rangeOf zs = 0) ∧
      ∀ c ∈ colorsOf zs, c = (0, 0, 1) := by
  have hr : rangeOf zs = 1 := by
    unfold rangeOf
    rw [h]
    norm_num
  have hz : ∀ z ∈ zs, z = zminOf zs := by
    intro z hzm
    have hle := mem_le_zmaxOf zs z hzm
    have hge := zminOf_le_mem zs z hzm
    have : zmaxOf zs = zminOf zs := by linarith
    linarith [this ▸ hle]
  refine ⟨hr, fun z hzm => ?_, fun c hc => ?_⟩
  · rw [hz z hzm, sub_self, zero_div]
  · unfold colorsOf at hc
    rw [List.mem_map] at hc
    obtain ⟨z, hzm, rfl⟩ := hc
    rw [hz z hzm, sub_self, zero_div, colorOf_zero]

/-- Witness for C6, with all sampled heights equal to `5`. -/
theorem c6_degenerate_range_witness :
    rangeOf [5, 5, 5] = 1 ∧
      (∀ z ∈ ([5, 5, 5] : List ℚ), (z - zminOf [5, 5, 5]) / rangeOf [5, 5, 5] = 0) ∧
      ∀ c ∈ colorsOf [5, 5, 5], c = (0, 0, 1) :=
  c6_degenerate_range [5, 5, 5] (by norm_num [zmaxOf, zminOf])

/-- C9: a resolution below 3 is silently clamped to 3; the resulting mesh is
identical (same positions, colours, indices) to a build at resolution 3 with
the same remaining parameters. -/
theorem c9_clamp_below_three (sqrtq sinq : ℚ → ℚ) (N : ℤ) (hN : N < 3)
    (radius zscale freq : ℚ) :
    makeSombrero sqrtq sinq N radius zscale freq =
      makeSombrero sqrtq sinq 3 radius zscale freq := by
  unfold makeSombrero
  rw [if_pos hN, if_neg (by omega : ¬(3 : ℤ) < 3)]
  rfl

/-- Witness for C9, at resolution `N = 2`. -/
theorem c9_clamp_below_three_witness :
    makeSombrero id id 2 1 1 1 = makeSombrero id id 3 1 1 1 :=
  c9_clamp_below_three id id 2 (by decide) 1 1 1

section ColorClaimHelpers

/-- Projection of the builder output: the colour list. -/
lemma makeSombrero_col (sqrtq sinq : ℚ → ℚ) (N : ℤ) (radius zscale freq : ℚ) :
    (makeSombrero sqrtq sinq N radius zscale freq).col =
      colorsOf (zsOf sqrtq sinq (if N < 3 then 3 else N.toNat)
        radius zscale freq) := rfl

/-- Projection of the builder output: the position list. -/
lemma makeSombrero_pos (sqrtq sinq : ℚ → ℚ) (N : ℤ) (radius zscale freq : ℚ) :
    (makeSombrero sqrtq sinq N radius zscale freq).pos =
      posOf sqrtq sinq (if N < 3 then 3 else N.toNat) radius zscale freq := rfl

/-- The colour of vertex `v` is the ramp colour of its normalised height. -/
lemma colorsOf_getD (zs : List ℚ) (v : ℕ) (hv : v < zs.length) (d : ℚ × ℚ × ℚ) :
    (colorsOf zs).getD v d =
      colorOf ((zs.getD v 0 - zminOf zs) / rangeOf zs) := by
  unfold colorsOf
  rw [List.getD_eq_getElem _ _ (by simpa using hv), List.getElem_map,
    List.getD_eq_getElem _ _ hv]

/-- If the tracked range is nondegenerate, `range` is not replaced by 1. -/
lemma rangeOf_eq (zs : List ℚ) (h : 1 / 1000000 ≤ zmaxOf zs - zminOf zs) :
    rangeOf zs = zmaxOf zs - zminOf zs := by
  unfold rangeOf
  rw [if_neg (not_lt.2 h)]

/-- Unconditionally, every produced colour has all components in `[0,1]`:
each height satisfies `zmin ≤ z ≤ zmax`, and whether the range guard fires
(`t = z - zmin < 1e-6 ≤ 1`) or not (`t = (z-zmin)/(zmax-zmin) ∈ [0,1]`),
the normalised height stays in `[0,1]`. -/
lemma colorsOf_components_unit (zs : List ℚ) :
    ∀ c ∈ colorsOf zs,
      0 ≤ c.1 ∧ c.1 ≤ 1 ∧ 0 ≤ c.2.1 ∧ c.2.1 ≤ 1 ∧ 0 ≤ c.2.2 ∧ c.2.2 ≤ 1 := by
  intro c hc
  unfold colorsOf at hc
  rw [List.mem_map] at hc
  obtain ⟨z, hzm, rfl⟩ := hc
  have hmin := zminOf_le_mem zs z hzm
  have hmax := mem_le_zmaxOf zs z hzm
  by_cases hr : zmaxOf zs - zminOf zs < 1 / 1000000
  · have hone : rangeOf zs = 1 := by
      unfold rangeOf
      rw [if_pos hr]
    rw [hone, div_one]
    exact colorOf_unit _ (by linarith) (by linarith)
  · have hro : rangeOf zs = zmaxOf zs - zminOf zs :=
      rangeOf_eq zs (le_of_not_lt hr)
    have hpos : 0 < rangeOf zs := by
      rw [hro]
      linarith [le_of_not_lt hr]
    refine colorOf_unit _ ?_ ?_
    · exact div_nonneg (by linarith) (le_of_lt hpos)
    · rw [div_le_one hpos, hro]
      linarith

/-- Concrete evaluation used by the C1 witness and counterexample: with
`sqrtf` modelled by the identity and `sinf` by squaring, the 3x3 build over
radius 1 samples the heights below (the centre sample is radius-clamped). -/
lemma zsOf_example :
    zsOf id (fun q => q * q) 3 1 1 1 =
      [2, 1, 2, 1, 1 / 10000, 1, 2, 1, 2] := by
  norm_num [zsOf, gridPoints, xAt, yAt, sample, sampleR, List.range_succ]

end ColorClaimHelpers

/-- C1 (counterexample): in the build with `sqrtf` modelled by the identity
and `sinf` by squaring, at `N = 3`, `radius = 1`, the vertex 0 attains the
maximum sampled height, yet its colour is `(1,0,0)` (red), not the claimed
`(1,1,0)` (yellow): the final ramp segment of the code runs yellow→red, not
red→yellow. -/
theorem c1_counterexample :
    zmaxOf (zsOf id (fun q => q * q) 3 1 1 1) =
        (zsOf id (fun q => q * q) 3 1 1 1).getD 0 0 ∧
      (makeSombrero id (fun q => q * q) 3 1 1 1).col.getD 0 (0, 0, 0) = (1, 0, 0) ∧
      ((1, 0, 0) : ℚ × ℚ × ℚ) ≠ (1, 1, 0) := by
  have hzs := zsOf_example
  refine ⟨?_, ?_, by norm_num [Prod.ext_iff]⟩
  · rw [hzs]
    norm_num [zmaxOf]
  · rw [makeSombrero_col]
    have hcl : (if (3 : ℤ) < 3 then (3 : ℕ) else (3 : ℤ).toNat) = 3 := rfl
    rw [hcl, colorsOf_getD _ 0 (by rw [hzs]; norm_num) _, hzs]
    norm_num [zminOf, zmaxOf, rangeOf, colorOf]

/-- C1 (amended): in every valid build — any parameters whatsoever — each
vertex colour component lies in `[0,1]` (unconditionally).  Provided the
sampled extremes lie inside the `±1e9` tracker seeds and the tracked range
is nondegenerate (`zmax - zmin ≥ 1e-6`), the vertex attaining the minimum
sampled height is coloured `(0,0,1)` and the vertex attaining the maximum
is coloured `(1,0,0)`: the ramp segments are `[0,.25)` blue→cyan,
`[.25,.5)` cyan→green, `[.5,.75)` green→yellow and `[.75,1]` yellow→red,
with exact endpoint colours. -/
theorem c1_color_ramp (sqrtq sinq : ℚ → ℚ) (N : ℤ) (radius zscale freq : ℚ)
    (zs : List ℚ)
    (hzs : zs = zsOf sqrtq sinq (if N < 3 then 3 else N.toNat) radius zscale freq)
    (v w : ℕ) (hv : v < zs.length) (hw : w < zs.length)
    (hvmin : ∀ z ∈ zs, zs.getD v 0 ≤ z) (hvlo : zs.getD v 0 ≤ 10 ^ 9)
    (hwmax : ∀ z ∈ zs, z ≤ zs.getD w 0) (hwhi : -(10 ^ 9) ≤ zs.getD w 0)
    (hrange : 1 / 1000000 ≤ zmaxOf zs - zminOf zs) :
    (∀ (sq si : ℚ → ℚ) (M : ℤ) (r zsc fr : ℚ),
        ∀ c ∈ (makeSombrero sq si M r zsc fr).col,
          0 ≤ c.1 ∧ c.1 ≤ 1 ∧ 0 ≤ c.2.1 ∧ c.2.1 ≤ 1 ∧ 0 ≤ c.2.2 ∧ c.2.2 ≤ 1) ∧
      (makeSombrero sqrtq sinq N radius zscale freq).col.getD v (0, 0, 0) =
        (0, 0, 1) ∧
      (makeSombrero sqrtq sinq N radius zscale freq).col.getD w (0, 0, 0) =
        (1, 0, 0) ∧
      colorOf 0 = (0, 0, 1) ∧ colorOf (1 / 4) = (0, 1, 1) ∧
      colorOf (1 / 2) = (0, 1, 0) ∧ colorOf (3 / 4) = (1, 1, 0) ∧
      colorOf 1 = (1, 0, 0) := by
  have hvmem : zs.getD v 0 ∈ zs := by
    rw [List.getD_eq_getElem _ _ hv]
    exact List.getElem_mem hv
  have hwmem : zs.getD w 0 ∈ zs := by
    rw [List.getD_eq_getElem _ _ hw]
    exact List.getElem_mem hw
  have hzmin : zminOf zs = zs.getD v 0 :=
    zminOf_eq_of_attained zs _ hvmem hvmin hvlo
  have hzmax : zmaxOf zs = zs.getD w 0 :=
    zmaxOf_eq_of_attained zs _ hwmem hwmax hwhi
  have hro : rangeOf zs = zmaxOf zs - zminOf zs := rangeOf_eq zs hrange
  refine ⟨?_, ?_, ?_, colorOf_zero, colorOf_quarter, colorOf_half,
    colorOf_threeQuarters, colorOf_one⟩
  · intro sq si M r zsc fr
    rw [makeSombrero_col]
    exact colorsOf_components_unit _
  · rw [makeSombrero_col, ← hzs, colorsOf_getD zs v hv, hzmin, sub_self,
      zero_div, colorOf_zero]
  · rw [makeSombrero_col, ← hzs, colorsOf_getD zs w hw, ← hzmax, hro,
      div_self (by linarith : zmaxOf zs - zminOf zs ≠ 0), colorOf_one]

/-- Witness for C1 (amended): in the concrete 3x3 build of
`c1_counterexample`, vertex 4 (the clamped centre) attains the minimum and
gets blue, vertex 0 attains the maximum and gets red; all colour components
of every build lie in `[0,1]`. -/
theorem c1_color_ramp_witness :
    (∀ (sq si : ℚ → ℚ) (M : ℤ) (r zsc fr : ℚ),
        ∀ c ∈ (makeSombrero sq si M r zsc fr).col,
          0 ≤ c.1 ∧ c.1 ≤ 1 ∧ 0 ≤ c.2.1 ∧ c.2.1 ≤ 1 ∧ 0 ≤ c.2.2 ∧ c.2.2 ≤ 1) ∧
      (makeSombrero id (fun q => q * q) 3 1 1 1).col.getD 4 (0, 0, 0) =
        (0, 0, 1) ∧
      (makeSombrero id (fun q => q * q) 3 1 1 1).col.getD 0 (0, 0, 0) =
        (1, 0, 0) ∧
      colorOf 0 = (0, 0, 1) ∧ colorOf (1 / 4) = (0, 1, 1) ∧
      colorOf (1 / 2) = (0, 1, 0) ∧ colorOf (3 / 4) = (1, 1, 0) ∧
      colorOf 1 = (1, 0, 0) := by
  refine c1_color_ramp id (fun q => q * q) 3 1 1 1
    [2, 1, 2, 1, 1 / 10000, 1, 2, 1, 2] zsOf_example.symm 4 0
    (by norm_num) (by norm_num) ?_ ?_ ?_ ?_ ?_
  · intro z hz
    fin_cases hz <;> norm_num
  · norm_num [List.getD_cons_succ, List.getD_cons_zero]
  · intro z hz
    fin_cases hz <;> norm_num
  · norm_num [List.getD_cons_zero]
  · norm_num [zmaxOf, zminOf]

section PositionHelpers

/-- Element `j*n + i` of the row-major grid is the point `(xAt i, yAt j)`. -/
lemma gridPoints_getD (n : ℕ) (radius : ℚ) (j i : ℕ) (hj : j < n) (hi : i < n)
    (d : ℚ × ℚ) :
    (gridPoints n radius).getD (j * n + i) d =
      (xAt n radius i, yAt n radius j) := by
  unfold gridPoints
  rw [getD_flatMap_range _ n (fun jj => by simp) n j i d hj hi]
  rw [List.getD_eq_getElem _ _ (by simpa using hi), List.getElem_map,
    List.getElem_range]

/-- A flat vertex position below `n*n` is in range of the position list. -/
lemma grid_index_lt (n j i : ℕ) (hj : j < n) (hi : i < n) : j * n + i < n * n := by
  have h1 : j * n + i < (j + 1) * n := by
    have : (j + 1) * n = j * n + n := by ring
    omega
  have h2 : (j + 1) * n ≤ n * n := Nat.mul_le_mul_right n hj
  omega

/-- Vertex `j*n + i` of the position list, written out. -/
lemma posOf_getD (sqrtq sinq : ℚ → ℚ) (n : ℕ) (radius zscale freq : ℚ)
    (j i : ℕ) (hj : j < n) (hi : i < n) (d : ℚ × ℚ × ℚ) :
    (posOf sqrtq sinq n radius zscale freq).getD (j * n + i) d =
      ((xAt n radius i / radius) * (3 / 2), (yAt n radius j / radius) * (3 / 2),
        sample sqrtq sinq zscale freq (xAt n radius i) (yAt n radius j)) := by
  unfold posOf
  have hlen : j * n + i < (gridPoints n radius).length := by
    rw [gridPoints_length]
    exact grid_index_lt n j i hj hi
  have hgrid := gridPoints_getD n radius j i hj hi (0, 0)
  rw [List.getD_eq_getElem _ _ hlen] at hgrid
  rw [List.getD_eq_getElem _ _ (by simpa using hlen), List.getElem_map, hgrid]

/-- The first grid coordinate is the domain's left edge. -/
lemma xAt_zero (n : ℕ) (radius : ℚ) : xAt n radius 0 = -radius := by
  simp [xAt]

/-- The last grid coordinate is the domain's right edge. -/
lemma xAt_last (n : ℕ) (radius : ℚ) (hn : 2 ≤ n) : xAt n radius (n - 1) = radius := by
  unfold xAt
  rw [Nat.cast_sub (by omega : 1 ≤ n)]
  have hne : (n : ℚ) - 1 ≠ 0 := by
    have h2 : (2 : ℚ) ≤ (n : ℚ) := by exact_mod_cast hn
    intro h0
    linarith
  rw [Nat.cast_one, div_self hne]
  ring

/-- The first grid row coordinate is the domain's bottom edge. -/
lemma yAt_zero (n : ℕ) (radius : ℚ) : yAt n radius 0 = -radius := by
  simp [yAt]

/-- The last grid row coordinate is the domain's top edge. -/
lemma yAt_last (n : ℕ) (radius : ℚ) (hn : 2 ≤ n) : yAt n radius (n - 1) = radius :=
  xAt_last n radius hn

/-- Every grid coordinate stays inside the sampling domain. -/
lemma xAt_bounds (n : ℕ) (radius : ℚ) (i : ℕ) (hi : i < n) (hn : 2 ≤ n)
    (hr : 0 < radius) : -radius ≤ xAt n radius i ∧ xAt n radius i ≤ radius := by
  unfold xAt
  have h1 : (0 : ℚ) ≤ (i : ℚ) := Nat.cast_nonneg i
  have h2 : (i : ℚ) ≤ (n : ℚ) - 1 := by
    have hcast : ((i : ℚ) + 1) ≤ (n : ℚ) := by exact_mod_cast hi
    linarith
  have hpos : (0 : ℚ) < (n : ℚ) - 1 := by
    have hcast : (2 : ℚ) ≤ (n : ℚ) := by exact_mod_cast hn
    linarith
  have ht0 : 0 ≤ (i : ℚ) / ((n : ℚ) - 1) := div_nonneg h1 (le_of_lt hpos)
  have ht1 : (i : ℚ) / ((n : ℚ) - 1) ≤ 1 := by
    rw [div_le_one hpos]
    exact h2
  constructor <;> nlinarith

/-- Rescaling a domain coordinate into the fixed display radius keeps it in
`[-1.5, 1.5]`. -/
lemma scale_bounds (x radius : ℚ) (hr : 0 < radius) (h1 : -radius ≤ x)
    (h2 : x ≤ radius) :
    -(3 / 2) ≤ (x / radius) * (3 / 2) ∧ (x / radius) * (3 / 2) ≤ 3 / 2 := by
  have hx1 : x / radius ≤ 1 := (div_le_one hr).2 h2
  have hx2 : -1 ≤ x / radius := by
    rw [le_div_iff₀ hr]
    linarith
  constructor <;> linarith

end PositionHelpers

/-- C10: for every `domainRadius > 0` and `N ≥ 3`, the x and y components of
every emitted vertex position lie in `[-1.5, 1.5]` (the fixed model-space
display radius `1.5` is independent of `domainRadius`), and the four corner
vertices lie exactly at `±1.5` in both components. -/
theorem c10_positions_in_display_radius (sqrtq sinq : ℚ → ℚ) (N : ℤ)
    (radius zscale freq : ℚ) (hN : 3 ≤ N) (hr : 0 < radius) :
    (∀ p ∈ (makeSombrero sqrtq sinq N radius zscale freq).pos,
        -(3 / 2) ≤ p.1 ∧ p.1 ≤ 3 / 2 ∧ -(3 / 2) ≤ p.2.1 ∧ p.2.1 ≤ 3 / 2) ∧
      ((makeSombrero sqrtq sinq N radius zscale freq).pos.getD 0 (0, 0, 0)).1 =
        -(3 / 2) ∧
      ((makeSombrero sqrtq sinq N radius zscale freq).pos.getD 0 (0, 0, 0)).2.1 =
        -(3 / 2) ∧
      ((makeSombrero sqrtq sinq N radius zscale freq).pos.getD
          (N.toNat - 1) (0, 0, 0)).1 = 3 / 2 ∧
      ((makeSombrero sqrtq sinq N radius zscale freq).pos.getD
          (N.toNat - 1) (0, 0, 0)).2.1 = -(3 / 2) ∧
      ((makeSombrero sqrtq sinq N radius zscale freq).pos.getD
          (N.toNat * (N.toNat - 1)) (0, 0, 0)).1 = -(3 / 2) ∧
      ((makeSombrero sqrtq sinq N radius zscale freq).pos.getD
          (N.toNat * (N.toNat - 1)) (0, 0, 0)).2.1 = 3 / 2 ∧
      ((makeSombrero sqrtq sinq N radius zscale freq).pos.getD
          (N.toNat * N.toNat - 1) (0, 0, 0)).1 = 3 / 2 ∧
      ((makeSombrero sqrtq sinq N radius zscale freq).pos.getD
          (N.toNat * N.toNat - 1) (0, 0, 0)).2.1 = 3 / 2 := by
  have hn3 : 3 ≤ N.toNat := by omega
  have hn2 : 2 ≤ N.toNat := by omega
  have hrne : radius ≠ 0 := ne_of_gt hr
  have hds : radius / radius = 1 := div_self hrne
  have hnds : -radius / radius = -1 := by rw [neg_div, hds]
  rw [makeSombrero_pos, clampN_eq N hN]
  set n := N.toNat with hn
  have h00 : (0 : ℕ) = 0 * n + 0 := by ring
  have h0l : n - 1 = 0 * n + (n - 1) := by ring_nf
  have hl0 : n * (n - 1) = (n - 1) * n + 0 := by ring
  have hll : n * n - 1 = (n - 1) * n + (n - 1) := by
    obtain ⟨m, hm⟩ : ∃ m, n = m + 1 := ⟨n - 1, by omega⟩
    rw [hm]
    have hexp : (m + 1) * (m + 1) = m * (m + 1) + m + 1 := by ring
    simp only [Nat.add_sub_cancel]
    omega
  refine ⟨?_, ?_, ?_, ?_, ?_, ?_, ?_, ?_, ?_⟩
  · intro p hp
    unfold posOf at hp
    rw [List.mem_map] at hp
    obtain ⟨q, hq, rfl⟩ := hp
    rw [mem_gridPoints] at hq
    obtain ⟨j, hj, i, hi, rfl⟩ := hq
    obtain ⟨hx1, hx2⟩ := xAt_bounds n radius i hi hn2 hr
    obtain ⟨hy1, hy2⟩ := xAt_bounds n radius j hj hn2 hr
    obtain ⟨ha, hb⟩ := scale_bounds (xAt n radius i) radius hr hx1 hx2
    obtain ⟨hc, hd⟩ := scale_bounds (xAt n radius j) radius hr hy1 hy2
    exact ⟨ha, hb, hc, hd⟩
  · rw [h00, posOf_getD _ _ _ _ _ _ 0 0 (by omega) (by omega)]
    simp only [xAt_zero]
    rw [hnds]
    ring
  · rw [h00, posOf_getD _ _ _ _ _ _ 0 0 (by omega) (by omega)]
    simp only [yAt_zero]
    rw [hnds]
    ring
  · rw [h0l, posOf_getD _ _ _ _ _ _ 0 (n - 1) (by omega) (by omega)]
    simp only [xAt_last n radius hn2]
    rw [hds]
    ring
  · rw [h0l, posOf_getD _ _ _ _ _ _ 0 (n - 1) (by omega) (by omega)]
    simp only [yAt_zero]
    rw [hnds]
    ring
  · rw [hl0, posOf_getD _ _ _ _ _ _ (n - 1) 0 (by omega) (by omega)]
    simp only [xAt_zero]
    rw [hnds]
    ring
  · rw [hl0, posOf_getD _ _ _ _ _ _ (n - 1) 0 (by omega) (by omega)]
    simp only [yAt_last n radius hn2]
    rw [hds]
    ring
  · rw [hll, posOf_getD _ _ _ _ _ _ (n - 1) (n - 1) (by omega) (by omega)]
    simp only [xAt_last n radius hn2]
    rw [hds]
    ring
  · rw [hll, posOf_getD _ _ _ _ _ _ (n - 1) (n - 1) (by omega) (by omega)]
    simp only [yAt_last n radius hn2]
    rw [hds]
    ring

/-- Witness for C10 at `N = 3`, `radius = 1`. -/
theorem c10_positions_witness :
    (∀ p ∈ (makeSombrero id id 3 1 1 1).pos,
        -(3 / 2) ≤ p.1 ∧ p.1 ≤ 3 / 2 ∧ -(3 / 2) ≤ p.2.1 ∧ p.2.1 ≤ 3 / 2) ∧
      ((makeSombrero id id 3 1 1 1).pos.getD 0 (0, 0, 0)).1 = -(3 / 2) ∧
      ((makeSombrero id id 3 1 1 1).pos.getD 0 (0, 0, 0)).2.1 = -(3 / 2) ∧
      ((makeSombrero id id 3 1 1 1).pos.getD 2 (0, 0, 0)).1 = 3 / 2 ∧
      ((makeSombrero id id 3 1 1 1).pos.getD 2 (0, 0, 0)).2.1 = -(3 / 2) ∧
      ((makeSombrero id id 3 1 1 1).pos.getD 6 (0, 0, 0)).1 = -(3 / 2) ∧
      ((makeSombrero id id 3 1 1 1).pos.getD 6 (0, 0, 0)).2.1 = 3 / 2 ∧
      ((makeSombrero id id 3 1 1 1).pos.getD 8 (0, 0, 0)).1 = 3 / 2 ∧
      ((makeSombrero id id 3 1 1 1).pos.getD 8 (0, 0, 0)).2.1 = 3 / 2 :=
  c10_positions_in_display_radius id id 3 1 1 1 (by norm_num) (by norm_num)

/-- C7: at `angle = 0` the composed per-frame rotation
`rotateY(0*0.9) * rotateX(0*0.5)` (mexhat.cpp line 223) is the identity
matrix, and at `angle = π/0.9` the Y-rotation component's angle is
`0.9*(π/0.9) = π`, a half turn: its matrix has `cos π = -1` in cells 0 and
10 and `sin π = 0` in cells 2 and 8. -/
theorem c7_rotation_identity_and_half_turn :
    Mat4.mul (rotateY Real.cos Real.sin ((0 : ℝ) * 0.9))
        (rotateX Real.cos Real.sin ((0 : ℝ) * 0.5)) = Mat4.identity ∧
      (0.9 : ℝ) * (Real.pi / 0.9) = Real.pi ∧
      rotateY Real.cos Real.sin ((0.9 : ℝ) * (Real.pi / 0.9)) 0 = -1 ∧
      rotateY Real.cos Real.sin ((0.9 : ℝ) * (Real.pi / 0.9)) 2 = 0 ∧
      rotateY Real.cos Real.sin ((0.9 : ℝ) * (Real.pi / 0.9)) 8 = 0 ∧
      rotateY Real.cos Real.sin ((0.9 : ℝ) * (Real.pi / 0.9)) 10 = -1 := by
  have hpi : (0.9 : ℝ) * (Real.pi / 0.9) = Real.pi := by
    rw [mul_comm]
    exact div_mul_cancel₀ _ (by norm_num)
  have h09 : (0 : ℝ) * 0.9 = 0 := by norm_num
  have h05 : (0 : ℝ) * 0.5 = 0 := by norm_num
  refine ⟨?_, hpi, ?_, ?_, ?_, ?_⟩
  · rw [h09, h05]
    funext k
    fin_cases k <;>
      simp +decide [Mat4.mul, rotateY, rotateX, Mat4.identity, Real.cos_zero,
        Real.sin_zero]
  all_goals rw [hpi]
  all_goals simp +decide [rotateY, Mat4.identity, Real.cos_pi, Real.sin_pi]

/-- C8: `perspective(60° in radians, 1, 0.1, 50)` has `-1` in cell 11, and
cells 10 and 14 match the standard right-handed closed forms
`(far+near)/(near-far) = -50.1/49.9` and `2*far*near/(near-far) = -10/49.9`
within `1e-5` (in the exact-arithmetic model they are met exactly). -/
theorem c8_perspective_entries :
    perspective Real.tan (60 * (Real.pi / 180)) 1 0.1 50 11 = -1 ∧
      |perspective Real.tan (60 * (Real.pi / 180)) 1 0.1 50 10 -
          (-(50.1 / 49.9))| < 1e-5 ∧
      |perspective Real.tan (60 * (Real.pi / 180)) 1 0.1 50 14 -
          (-(10 / 49.9))| < 1e-5 := by
  refine ⟨?_, ?_, ?_⟩ <;> simp +decide [perspective] <;> norm_num
